import Mathlib

/-!
Verification of the Mandelbrot explorer core (src/main.cpp).

The C++ source is shallowly embedded here.  Machine floating-point
(`double`) arithmetic is idealised as exact arithmetic: rational numbers
for the coordinate mapper, the escape-time engine and the view
controller, and real numbers for the transcendental color formula
(`log2`, `sin`, `fmod`).  Pixel buffers are modelled as functions from
linear pixel index to packed color.  The `|z| <= 2.0` test of the engine
is expressed through the squared norm (`normSq z <= 4`), which is
equivalent and keeps the engine executable on rationals.
-/

/-- Window width constant from `main.cpp` (line 10). -/
def WINDOW_WIDTH : ℕ := 800

/-- Window height constant from `main.cpp` (line 11). -/
def WINDOW_HEIGHT : ℕ := 600

/-- Iteration cap constant from `main.cpp` (line 12). -/
def MAX_ITERATIONS : ℕ := 1000

/-- The pan/zoom state of the explorer: fields `centerX`, `centerY`,
`zoom` of the `MandelbrotExplorer` class (lines 21-23). -/
structure ViewState where
  centerX : ℚ
  centerY : ℚ
  zoom : ℚ
  deriving DecidableEq

/-- Coordinate mapper, pixel to complex plane: the body of the
`renderLine` lambda, lines 67-68 of `main.cpp`:
`real = (x - W/2.0) / (zoom * W/4.0) + centerX`,
`imag = (y - H/2.0) / (zoom * W/4.0) + centerY`
(the horizontal extent `W` is the scale denominator on both axes). -/
def complexFromPixel (x y : ℚ) (st : ViewState) : ℚ × ℚ :=
  ((x - WINDOW_WIDTH / 2) / (st.zoom * WINDOW_WIDTH / 4) + st.centerX,
   (y - WINDOW_HEIGHT / 2) / (st.zoom * WINDOW_WIDTH / 4) + st.centerY)

/-- Modelled from the spec: the repository has no pixel-from-complex
function of its own (only the pixel-to-complex direction appears, in the
`renderLine` lambda and the mouse-wheel handler); section 4.1 of the spec
requires the inverse direction of the same mapping, so it is written here
as the algebraic inverse of `complexFromPixel`. -/
def pixelFromComplex (p : ℚ × ℚ) (st : ViewState) : ℚ × ℚ :=
  ((p.1 - st.centerX) * (st.zoom * WINDOW_WIDTH / 4) + WINDOW_WIDTH / 2,
   (p.2 - st.centerY) * (st.zoom * WINDOW_WIDTH / 4) + WINDOW_HEIGHT / 2)

/-- Squared magnitude of a complex number represented as a pair.
`std::abs(z) <= 2.0` is `normSq z <= 4` and `std::abs(z) > 2.0` is
`normSq z > 4`. -/
def normSq (z : ℚ × ℚ) : ℚ := z.1 * z.1 + z.2 * z.2

/-- One orbit step `z = z * z + c` (line 52 of `main.cpp`);
`std::complex` multiplication written out on the pair representation. -/
def mandelStep (z c : ℚ × ℚ) : ℚ × ℚ :=
  (z.1 * z.1 - z.2 * z.2 + c.1, 2 * z.1 * z.2 + c.2)

/-- The `while ((zabs = std::abs(z)) <= 2.0 && iterations < MAX_ITERATIONS)`
loop of `calculateMandelbrot` (lines 50-54), with the remaining iteration
budget `fuel = MAX_ITERATIONS - iterations` made explicit.  The inner
`if (zabs > 2.0) break;` of line 51 is unreachable (the loop condition
already guarantees `zabs <= 2.0` there) and therefore has no counterpart. -/
def mandelAux (c : ℚ × ℚ) : ℕ → ℚ × ℚ → ℕ → ℕ
  | 0, _, iterations => iterations
  | fuel + 1, z, iterations =>
    if normSq z ≤ 4 then mandelAux c fuel (mandelStep z c) (iterations + 1)
    else iterations

/-- Model of `MandelbrotExplorer::calculateMandelbrot` (lines 45-57):
iterate `z = z * z + c` from `z = 0` until the orbit leaves the disc of
radius 2 or the iteration cap is reached, returning the iteration count. -/
def calculateMandelbrot (c : ℚ × ℚ) : ℕ :=
  mandelAux c MAX_ITERATIONS (0, 0) 0

/-- The orbit `z_0 = 0, z_{n+1} = z_n^2 + c` of the quadratic map. -/
def orbit (c : ℚ × ℚ) : ℕ → ℚ × ℚ
  | 0 => (0, 0)
  | n + 1 => mandelStep (orbit c n) c

/-- Rows per worker: `int linesPerThread = WINDOW_HEIGHT / numThreads;`
(line 78), parametrised by the height `H` and the worker count `T`. -/
def linesPerThread (H T : ℕ) : ℕ := H / T

/-- First row of worker `i`: `int startY = i * linesPerThread;`
(lines 80 and 92). -/
def tileStart (H T i : ℕ) : ℕ := i * linesPerThread H T

/-- One-past-last row of worker `i`:
`int endY = (i == numThreads - 1) ? WINDOW_HEIGHT : (i + 1) * linesPerThread;`
(lines 81 and 93). -/
def tileEnd (H T i : ℕ) : ℕ :=
  if i = T - 1 then H else (i + 1) * linesPerThread H T

/-- Base-2 logarithm on the reals, modelling `std::log2`. -/
noncomputable def log2 (x : ℝ) : ℝ := Real.log x / Real.log 2

/-- Truncation toward zero, the rounding used both by C `fmod` and by a
`static_cast` from `double` to an integer type. -/
noncomputable def ctrunc (x : ℝ) : ℤ := if 0 ≤ x then ⌊x⌋ else ⌈x⌉

/-- C `std::fmod`: `fmod x y = x - trunc (x / y) * y`. -/
noncomputable def fmod (x y : ℝ) : ℝ := x - (ctrunc (x / y) : ℝ) * y

/-- Model of `MandelbrotExplorer::getColor` (lines 28-43): interior
points (`iterations == MAX_ITERATIONS`) are black; otherwise
`smooth = iterations + 1 - log2(log2(abs(iterations)))` (note: the
argument of the inner log is the iteration count, line 32), then
`hue = fmod(smooth / 32.0, 1.0)`, the three channels are
`abs(sin(2*pi*(hue + k/3)))` for `k = 0, 1, 2`, each scaled by 255,
truncated, and packed as `r << 16 | g << 8 | b`.  The iteration count
argument is an `int` that the caller always supplies in
`[0, MAX_ITERATIONS]`, so it is taken here as a natural number (making
`std::abs` the absolute value of a non-negative cast). -/
noncomputable def getColor (iterations : ℕ) : ℕ :=
  if iterations = MAX_ITERATIONS then 0
  else
    let smooth : ℝ := (iterations : ℝ) + 1 - log2 (log2 |(iterations : ℝ)|)
    let hue : ℝ := fmod (smooth / 32) 1
    let r : ℝ := |Real.sin (2 * Real.pi * (hue + 0 / 3))|
    let g : ℝ := |Real.sin (2 * Real.pi * (hue + 1 / 3))|
    let b : ℝ := |Real.sin (2 * Real.pi * (hue + 2 / 3))|
    ((ctrunc (r * 255)).toNat <<< 16) ||| ((ctrunc (g * 255)).toNat <<< 8) |||
      (ctrunc (b * 255)).toNat

/-- Modelled from the claim C1 wording: the same color pipeline but with
the smoothing formula fed the escaped magnitude `|z|` instead of the
iteration count, `smooth = iterations + 1 - log2(log2(|z|))`.  This is
the reference point against which `getColor` is compared. -/
noncomputable def getColorSpec (iterations : ℕ) (zmag : ℝ) : ℕ :=
  let smooth : ℝ := (iterations : ℝ) + 1 - log2 (log2 zmag)
  let hue : ℝ := fmod (smooth / 32) 1
  let r : ℝ := |Real.sin (2 * Real.pi * (hue + 0 / 3))|
  let g : ℝ := |Real.sin (2 * Real.pi * (hue + 1 / 3))|
  let b : ℝ := |Real.sin (2 * Real.pi * (hue + 2 / 3))|
  ((ctrunc (r * 255)).toNat <<< 16) ||| ((ctrunc (g * 255)).toNat <<< 8) |||
    (ctrunc (b * 255)).toNat

/-- The per-pixel pipeline of the `renderLine` lambda (lines 66-72):
coordinate mapper, then escape-time engine, then color mapper, for the
pixel with coordinates `(x, y)`. -/
noncomputable def pixelColor (st : ViewState) (x y : ℕ) : ℕ :=
  getColor (calculateMandelbrot (complexFromPixel (x : ℚ) (y : ℚ) st))

/-- Effect of one `renderLine(buffer, startY, endY)` call (lines 64-75)
on a buffer, viewed as a map from linear index to color: every index of
a row in `[startY, endY)` receives the pipeline color of its pixel
(the index `y * WINDOW_WIDTH + x` has `y = idx / WINDOW_WIDTH` and
`x = idx % WINDOW_WIDTH`), all other entries are untouched. -/
noncomputable def renderLineBuf (st : ViewState) (startY endY : ℕ) (buffer : ℕ → ℕ) :
    ℕ → ℕ :=
  fun idx =>
    if startY * WINDOW_WIDTH ≤ idx ∧ idx < endY * WINDOW_WIDTH then
      pixelColor st (idx % WINDOW_WIDTH) (idx / WINDOW_WIDTH)
    else buffer idx

/-- Worker `i` fills its zero-initialised private buffer
(`threadBuffers`, line 62) with its tile rows (lines 79-83). -/
noncomputable def threadBuffer (st : ViewState) (T i : ℕ) : ℕ → ℕ :=
  renderLineBuf st (tileStart WINDOW_HEIGHT T i) (tileEnd WINDOW_HEIGHT T i) (fun _ => 0)

/-- The merge loop (lines 91-100): the rows of each worker buffer are
copied in turn into `tempPixels`, and after the `std::swap` of line 103
this merged buffer is published, so `renderMandelbrot st T temp` is the
buffer handed to the display surface when the pass started from work
buffer contents `temp`. -/
noncomputable def renderMandelbrot (st : ViewState) (T : ℕ) (tempPixels : ℕ → ℕ) :
    ℕ → ℕ :=
  (List.range T).foldl
    (fun buf i => fun idx =>
      if tileStart WINDOW_HEIGHT T i * WINDOW_WIDTH ≤ idx ∧
          idx < tileEnd WINDOW_HEIGHT T i * WINDOW_WIDTH then
        threadBuffer st T i idx
      else buf idx)
    tempPixels

/-- The incremental zoom loop of the `SDL_MOUSEWHEEL` handler
(lines 205-218 of `main.cpp`):
`while (std::abs(currentZoom - targetZoom) > 0.0001)` runs the body
`currentZoom = zoom + (targetZoom - zoom) * (steps / 10.0); zoom = currentZoom;`
followed by the recentering of lines 212-213, `steps++`, and
`if (steps > 10) break;`.  The recursion carries the body counter
`steps` and the remaining budget `fuel`; the `10 < steps` test models the
post-increment break reaching the top of the next iteration. -/
def wheelAux (targetZoom mouseX mouseY mouseWorldX mouseWorldY : ℚ) :
    ℕ → ℕ → ViewState → ℚ → ViewState
  | 0, _, st, _ => st
  | fuel + 1, steps, st, currentZoom =>
    if 10 < steps then st
    else if |currentZoom - targetZoom| ≤ 1 / 10000 then st
    else
      let z : ℚ := st.zoom + (targetZoom - st.zoom) * (steps / 10)
      wheelAux targetZoom mouseX mouseY mouseWorldX mouseWorldY fuel (steps + 1)
        ⟨mouseWorldX - (mouseX - WINDOW_WIDTH / 2) / (z * WINDOW_WIDTH / 4),
         mouseWorldY - (mouseY - WINDOW_HEIGHT / 2) / (z * WINDOW_WIDTH / 4), z⟩ z

/-- The `SDL_MOUSEWHEEL` handler (lines 195-219): capture the
complex-plane point under the pointer with the pre-zoom view state
(lines 200-201), pick the target zoom
`event.wheel.y > 0 ? zoom * 1.1 : zoom / 1.1` (line 204), and run the
incremental loop with `steps = 1`, `currentZoom = zoom` (lines 205-218);
the loop body runs at most 10 times, so a budget of 10 is exact. -/
def mouseWheel (wheelY : ℤ) (st : ViewState) (mouseX mouseY : ℚ) : ViewState :=
  let mouseWorldX : ℚ :=
    (mouseX - WINDOW_WIDTH / 2) / (st.zoom * WINDOW_WIDTH / 4) + st.centerX
  let mouseWorldY : ℚ :=
    (mouseY - WINDOW_HEIGHT / 2) / (st.zoom * WINDOW_WIDTH / 4) + st.centerY
  let targetZoom : ℚ := if 0 < wheelY then st.zoom * (11 / 10) else st.zoom / (11 / 10)
  wheelAux targetZoom mouseX mouseY mouseWorldX mouseWorldY 10 1 st st.zoom

/-- Modelled from the spec: one zoom sub-step as claim C7 words it,
moving `1/10` of the way from the current zoom toward the target. -/
def wheelSubStepSpec (z targetZoom : ℚ) : ℚ := z + (targetZoom - z) * (1 / 10)

/-- Full explorer state for dragging: the `dragStart` point and the
`isDragging` flag (lines 25-26) together with the view state. -/
structure ExplorerState where
  view : ViewState
  dragStartX : ℤ
  dragStartY : ℤ
  isDragging : Bool
  deriving DecidableEq

/-- Handler for `SDL_MOUSEBUTTONDOWN` with the left button
(lines 171-176): record the drag anchor and enter the dragging state. -/
def mouseButtonDown (st : ExplorerState) (mx my : ℤ) : ExplorerState :=
  { st with dragStartX := mx, dragStartY := my, isDragging := true }

/-- Handler for `SDL_MOUSEBUTTONUP` with the left button
(lines 178-182): leave the dragging state. -/
def mouseButtonUp (st : ExplorerState) : ExplorerState :=
  { st with isDragging := false }

/-- Handler for `SDL_MOUSEMOTION` (lines 184-193): while dragging,
convert the pixel delta from the anchor to the pointer into a plane
delta with the mapper scale `zoom * WINDOW_WIDTH/4.0`, subtract it from
the center, and re-base the anchor at the pointer. -/
def mouseMotion (st : ExplorerState) (mx my : ℤ) : ExplorerState :=
  if st.isDragging then
    let dx : ℚ := ((mx - st.dragStartX : ℤ) : ℚ) / (st.view.zoom * WINDOW_WIDTH / 4)
    let dy : ℚ := ((my - st.dragStartY : ℤ) : ℚ) / (st.view.zoom * WINDOW_WIDTH / 4)
    { st with
      view := { st.view with centerX := st.view.centerX - dx,
                             centerY := st.view.centerY - dy },
      dragStartX := mx, dragStartY := my }
  else st

/-- A continuous drag: press at `(x0, y0)`, a sequence of motion events,
release. -/
def dragRun (st : ExplorerState) (x0 y0 : ℤ) (moves : List (ℤ × ℤ)) : ExplorerState :=
  mouseButtonUp
    (moves.foldl (fun s m => mouseMotion s m.1 m.2) (mouseButtonDown st x0 y0))

lemma orbit_succ (c : ℚ × ℚ) (n : ℕ) : orbit c (n + 1) = mandelStep (orbit c n) c := rfl

/-- Loop invariant of the escape-time loop: starting at orbit position
`it` with `fuel` budget left, the returned count `r` satisfies
`it ≤ r ≤ it + fuel`, every strictly earlier orbit point from `it` on was
inside the radius-2 disc, and either the orbit escapes at `r` or the
budget was exhausted. -/
lemma mandelAux_spec (c : ℚ × ℚ) : ∀ (fuel it : ℕ),
    it ≤ mandelAux c fuel (orbit c it) it ∧
    mandelAux c fuel (orbit c it) it ≤ it + fuel ∧
    (∀ j, it ≤ j → j < mandelAux c fuel (orbit c it) it → normSq (orbit c j) ≤ 4) ∧
    (4 < normSq (orbit c (mandelAux c fuel (orbit c it) it)) ∨
      mandelAux c fuel (orbit c it) it = it + fuel) := by
  intro fuel
  induction fuel with
  | zero =>
    intro it
    refine ⟨le_refl it, by simp [mandelAux], ?_, Or.inr rfl⟩
    intro j h1 h2
    simp only [mandelAux] at h2
    omega
  | succ fuel ih =>
    intro it
    by_cases h : normSq (orbit c it) ≤ 4
    · have hstep : mandelAux c (fuel + 1) (orbit c it) it
          = mandelAux c fuel (orbit c (it + 1)) (it + 1) := by
        simp [mandelAux, h, orbit_succ]
      obtain ⟨ih1, ih2, ih3, ih4⟩ := ih (it + 1)
      rw [hstep]
      refine ⟨by omega, by omega, ?_, ?_⟩
      · intro j h1 h2
        rcases Nat.eq_or_lt_of_le h1 with h1 | h1
        · exact h1 ▸ h
        · exact ih3 j h1 h2
      · rcases ih4 with h4 | h4
        · exact Or.inl h4
        · exact Or.inr (by omega)
    · have hstop : mandelAux c (fuel + 1) (orbit c it) it = it := by
        simp [mandelAux, h]
      rw [hstop]
      exact ⟨le_refl it, by omega, fun j h1 h2 => by omega, Or.inl (by linarith)⟩

/-- The zero orbit stays at the origin. -/
lemma orbit_zero (n : ℕ) : orbit (0, 0) n = (0, 0) := by
  induction n with
  | zero => rfl
  | succ n ih => rw [orbit_succ, ih]; norm_num [mandelStep]

/-- On the all-zero orbit the loop always runs out of budget. -/
lemma mandelAux_zero (fuel : ℕ) : ∀ it, mandelAux (0, 0) fuel (0, 0) it = it + fuel := by
  induction fuel with
  | zero => intro it; simp [mandelAux]
  | succ fuel ih =>
    intro it
    have h : normSq ((0, 0) : ℚ × ℚ) ≤ 4 := by norm_num [normSq]
    simp only [mandelAux, h, if_pos]
    have hstep : mandelStep (0, 0) (0, 0) = ((0 : ℚ), (0 : ℚ)) := by
      norm_num [mandelStep]
    rw [hstep, ih (it + 1)]
    omega

lemma mandelAux_step (c z : ℚ × ℚ) (fuel it : ℕ) (h : normSq z ≤ 4) :
    mandelAux c (fuel + 1) z it = mandelAux c fuel (mandelStep z c) (it + 1) := by
  simp [mandelAux, h]

lemma mandelAux_stop (c z : ℚ × ℚ) (fuel it : ℕ) (h : ¬ normSq z ≤ 4) :
    mandelAux c (fuel + 1) z it = it := by
  simp [mandelAux, h]

/-- The point `c = 3` escapes after exactly one completed iteration, so
the color mapper receives `iterations = 1` in a real run. -/
lemma calc_three_eq_one : calculateMandelbrot (3, 0) = 1 := by
  unfold calculateMandelbrot
  rw [show MAX_ITERATIONS = 999 + 1 from rfl,
    mandelAux_step _ _ _ _ (by norm_num [normSq]),
    show mandelStep (0, 0) (3, 0) = ((3 : ℚ), (0 : ℚ)) by norm_num [mandelStep],
    show (999 : ℕ) = 998 + 1 from rfl,
    mandelAux_stop _ _ _ _ (by norm_num [normSq])]

/-- The point `c = 2` escapes after exactly two completed iterations with
escaped orbit point `(6, 0)`, of magnitude 6. -/
lemma calc_two_eq_two : calculateMandelbrot (2, 0) = 2 := by
  unfold calculateMandelbrot
  rw [show MAX_ITERATIONS = 999 + 1 from rfl,
    mandelAux_step _ _ _ _ (by norm_num [normSq]),
    show mandelStep (0, 0) (2, 0) = ((2 : ℚ), (0 : ℚ)) by norm_num [mandelStep],
    show (999 : ℕ) = 998 + 1 from rfl,
    mandelAux_step _ _ _ _ (by norm_num [normSq]),
    show mandelStep (2, 0) (2, 0) = ((6 : ℚ), (0 : ℚ)) by norm_num [mandelStep],
    show (998 : ℕ) = 997 + 1 from rfl,
    mandelAux_stop _ _ _ _ (by norm_num [normSq])]

/-- Every row below `H` lies in some tile (this needs only `1 ≤ T`; when
`T > H` the quotient is `0`, all but the last tile are empty and the last
tile is the whole range). -/
lemma tile_cover (H T y : ℕ) (hT : 1 ≤ T) (hy : y < H) :
    ∃ i, i < T ∧ tileStart H T i ≤ y ∧ y < tileEnd H T i := by
  by_cases hl : linesPerThread H T = 0
  · refine ⟨T - 1, by omega, ?_, ?_⟩
    · simp [tileStart, hl]
    · simp [tileEnd, hy]
  · have hl0 : 0 < linesPerThread H T := Nat.pos_of_ne_zero hl
    by_cases hc : y / linesPerThread H T < T - 1
    · refine ⟨y / linesPerThread H T, by omega, Nat.div_mul_le_self y _, ?_⟩
      have hne : y / linesPerThread H T ≠ T - 1 := by omega
      rw [tileEnd, if_neg hne]
      calc y < linesPerThread H T * (y / linesPerThread H T) + linesPerThread H T := by
              have hmod := Nat.div_add_mod y (linesPerThread H T)
              have hlt := Nat.mod_lt y hl0
              omega
        _ = (y / linesPerThread H T + 1) * linesPerThread H T := by ring
    · refine ⟨T - 1, by omega, ?_, ?_⟩
      · calc tileStart H T (T - 1) = (T - 1) * linesPerThread H T := rfl
          _ ≤ (y / linesPerThread H T) * linesPerThread H T :=
              Nat.mul_le_mul_right _ (by omega)
          _ ≤ y := Nat.div_mul_le_self y _
      · simp [tileEnd, hy]

/-- Distinct tiles are disjoint (for `i < j < T`, tile `i` ends no later
than tile `j` starts). -/
lemma tile_disjoint (H T i j y : ℕ) (hij : i < j) (hj : j < T)
    (hi : tileStart H T i ≤ y ∧ y < tileEnd H T i)
    (hjc : tileStart H T j ≤ y ∧ y < tileEnd H T j) : False := by
  have hiT : i ≠ T - 1 := by omega
  have hend : tileEnd H T i = (i + 1) * linesPerThread H T := by
    rw [tileEnd, if_neg hiT]
  have hle : tileEnd H T i ≤ tileStart H T j := by
    rw [hend]
    calc (i + 1) * linesPerThread H T ≤ j * linesPerThread H T :=
          Nat.mul_le_mul_right _ (by omega)
      _ = tileStart H T j := rfl
  omega

/-- Truncation toward zero agrees with the floor on non-negative input. -/
lemma ctrunc_of_nonneg {x : ℝ} (h : 0 ≤ x) : ctrunc x = ⌊x⌋ := if_pos h

/-- A scaled absolute sine, truncated, is a byte value. -/
lemma sinByte_le (θ : ℝ) : (ctrunc (|Real.sin θ| * 255)).toNat ≤ 255 := by
  have h0 : (0 : ℝ) ≤ |Real.sin θ| * 255 := by positivity
  rw [ctrunc_of_nonneg h0, Int.toNat_le]
  have h1 : |Real.sin θ| * 255 ≤ 255 := by
    have hle : |Real.sin θ| ≤ 1 := abs_le.mpr ⟨Real.neg_one_le_sin θ, Real.sin_le_one θ⟩
    nlinarith
  calc ⌊|Real.sin θ| * 255⌋ ≤ ⌊(255 : ℝ)⌋ := Int.floor_le_floor h1
    _ = 255 := by norm_num

/-- The `r << 16 | g << 8 | b` packing of three bytes is plain
positional arithmetic. -/
lemma pack_bytes (r g b : ℕ) (hg : g ≤ 255) (hb : b ≤ 255) :
    (r <<< 16) ||| (g <<< 8) ||| b = r * 2 ^ 16 + (g * 2 ^ 8 + b) := by
  have hb8 : b < 2 ^ 8 := by omega
  have hgb : 2 ^ 8 * g + b < 2 ^ 16 := by omega
  have h1 : (g <<< 8) ||| b = 2 ^ 8 * g + b := by
    rw [Nat.shiftLeft_eq, Nat.mul_comm]
    exact (Nat.mul_add_lt_is_or hb8 g).symm
  rw [Nat.lor_assoc, h1, Nat.shiftLeft_eq]
  have h2 : r * 2 ^ 16 = 2 ^ 16 * r := Nat.mul_comm _ _
  rw [h2, (Nat.mul_add_lt_is_or hgb r).symm]
  ring

/-- Any merge step that writes to `idx` writes the pipeline color. -/
lemma merge_writes_pixelColor (st : ViewState) (T i idx : ℕ)
    (h : tileStart WINDOW_HEIGHT T i * WINDOW_WIDTH ≤ idx ∧
      idx < tileEnd WINDOW_HEIGHT T i * WINDOW_WIDTH) :
    threadBuffer st T i idx = pixelColor st (idx % WINDOW_WIDTH) (idx / WINDOW_WIDTH) := by
  unfold threadBuffer renderLineBuf
  rw [if_pos h]

/-- Folding further merge steps preserves an entry that already holds
the pipeline color. -/
lemma merge_foldl_preserve (st : ViewState) (T idx : ℕ) :
    ∀ (l : List ℕ) (buf : ℕ → ℕ),
      buf idx = pixelColor st (idx % WINDOW_WIDTH) (idx / WINDOW_WIDTH) →
      (l.foldl
        (fun buf i => fun idx =>
          if tileStart WINDOW_HEIGHT T i * WINDOW_WIDTH ≤ idx ∧
              idx < tileEnd WINDOW_HEIGHT T i * WINDOW_WIDTH then
            threadBuffer st T i idx
          else buf idx)
        buf) idx = pixelColor st (idx % WINDOW_WIDTH) (idx / WINDOW_WIDTH) := by
  intro l
  induction l with
  | nil => intro buf h; exact h
  | cons j l ih =>
    intro buf h
    simp only [List.foldl_cons]
    apply ih
    by_cases hc : tileStart WINDOW_HEIGHT T j * WINDOW_WIDTH ≤ idx ∧
        idx < tileEnd WINDOW_HEIGHT T j * WINDOW_WIDTH
    · simp only [if_pos hc]
      exact merge_writes_pixelColor st T j idx hc
    · simp only [if_neg hc]
      exact h

/-- If some tile in the worklist covers `idx`, the merged buffer holds
the pipeline color at `idx`. -/
lemma merge_foldl_covered (st : ViewState) (T idx : ℕ) :
    ∀ (l : List ℕ) (buf : ℕ → ℕ) (i : ℕ), i ∈ l →
      tileStart WINDOW_HEIGHT T i * WINDOW_WIDTH ≤ idx →
      idx < tileEnd WINDOW_HEIGHT T i * WINDOW_WIDTH →
      (l.foldl
        (fun buf i => fun idx =>
          if tileStart WINDOW_HEIGHT T i * WINDOW_WIDTH ≤ idx ∧
              idx < tileEnd WINDOW_HEIGHT T i * WINDOW_WIDTH then
            threadBuffer st T i idx
          else buf idx)
        buf) idx = pixelColor st (idx % WINDOW_WIDTH) (idx / WINDOW_WIDTH) := by
  intro l
  induction l with
  | nil => intro buf i hmem; exact absurd hmem (List.not_mem_nil i)
  | cons j l ih =>
    intro buf i hmem h1 h2
    simp only [List.foldl_cons]
    rcases List.mem_cons.mp hmem with hj | hmem
    · subst hj
      apply merge_foldl_preserve
      rw [if_pos ⟨h1, h2⟩]
      exact merge_writes_pixelColor st T i idx ⟨h1, h2⟩
    · exact ih _ i hmem h1 h2

/-- The loop invariant of the zoom loop: whenever `currentZoom` mirrors
the state zoom, the zoom already equals the target once the counter is
past 10, and enough budget remains to reach counter 11, the final zoom is
within `0.0001` of the target (each executed body moves `steps/10` of the
remaining way, so body 10 lands exactly on the target; an early exit is
within the threshold by the loop condition). -/
lemma wheelAux_zoom_close (targetZoom mouseX mouseY mouseWorldX mouseWorldY : ℚ) :
    ∀ (fuel : ℕ) (steps : ℕ) (st : ViewState) (currentZoom : ℚ),
      currentZoom = st.zoom → (10 < steps → st.zoom = targetZoom) →
      11 ≤ steps + fuel →
      |(wheelAux targetZoom mouseX mouseY mouseWorldX mouseWorldY fuel steps st
          currentZoom).zoom - targetZoom| ≤ 1 / 10000 := by
  intro fuel
  induction fuel with
  | zero =>
    intro steps st currentZoom h1 h2 h3
    have h4 : st.zoom = targetZoom := h2 (by omega)
    simp [wheelAux, h4]
  | succ fuel ih =>
    intro steps st currentZoom h1 h2 h3
    by_cases hs : 10 < steps
    · have h4 : st.zoom = targetZoom := h2 hs
      simp [wheelAux, hs, h4]
    · by_cases hc : |currentZoom - targetZoom| ≤ 1 / 10000
      · simp only [wheelAux, if_neg hs, if_pos hc]
        rw [← h1]
        exact hc
      · simp only [wheelAux, if_neg hs, if_neg hc]
        apply ih
        · rfl
        · intro h10
          have hsteps : steps = 10 := by omega
          subst hsteps
          push_cast
          ring
        · omega

/-- The recentering of lines 212-213 keeps the captured cursor-anchor
point under the pointer: if the state maps the mouse pixel to the anchor,
so does the state after any number of loop bodies. -/
lemma wheelAux_anchor (targetZoom mouseX mouseY mouseWorldX mouseWorldY : ℚ) :
    ∀ (fuel : ℕ) (steps : ℕ) (st : ViewState) (currentZoom : ℚ),
      complexFromPixel mouseX mouseY st = (mouseWorldX, mouseWorldY) →
      complexFromPixel mouseX mouseY
        (wheelAux targetZoom mouseX mouseY mouseWorldX mouseWorldY fuel steps st
          currentZoom) = (mouseWorldX, mouseWorldY) := by
  intro fuel
  induction fuel with
  | zero => intro steps st currentZoom h; simpa [wheelAux] using h
  | succ fuel ih =>
    intro steps st currentZoom h
    by_cases hs : 10 < steps
    · simpa [wheelAux, hs] using h
    · by_cases hc : |currentZoom - targetZoom| ≤ 1 / 10000
      · simp only [wheelAux, if_neg hs, if_pos hc]
        exact h
      · simp only [wheelAux, if_neg hs, if_neg hc]
        apply ih
        unfold complexFromPixel
        refine Prod.ext ?_ ?_ <;> simp

/-- The wheel handler always ends within the threshold of its target. -/
lemma mouseWheel_close (wheelY : ℤ) (st : ViewState) (mX mY : ℚ) :
    |(mouseWheel wheelY st mX mY).zoom -
      (if 0 < wheelY then st.zoom * (11 / 10) else st.zoom / (11 / 10))| ≤ 1 / 10000 := by
  simp only [mouseWheel]
  exact wheelAux_zoom_close _ mX mY _ _ 10 1 st st.zoom rfl
    (fun h => absurd h (by omega)) (by omega)

/-- Telescoping of the per-move center updates: across any sequence of
motion events processed while dragging, the net center change is the
total anchor displacement divided by the mapper scale, and zoom and the
dragging flag are unchanged. -/
lemma dragFold_spec (moves : List (ℤ × ℤ)) :
    ∀ (s : ExplorerState), s.isDragging = true →
      (moves.foldl (fun a m => mouseMotion a m.1 m.2) s).isDragging = true ∧
      (moves.foldl (fun a m => mouseMotion a m.1 m.2) s).view.zoom = s.view.zoom ∧
      (moves.foldl (fun a m => mouseMotion a m.1 m.2) s).view.centerX
        = s.view.centerX -
          (((moves.foldl (fun a m => mouseMotion a m.1 m.2) s).dragStartX
              - s.dragStartX : ℤ) : ℚ) / (s.view.zoom * WINDOW_WIDTH / 4) ∧
      (moves.foldl (fun a m => mouseMotion a m.1 m.2) s).view.centerY
        = s.view.centerY -
          (((moves.foldl (fun a m => mouseMotion a m.1 m.2) s).dragStartY
              - s.dragStartY : ℤ) : ℚ) / (s.view.zoom * WINDOW_WIDTH / 4) := by
  induction moves with
  | nil =>
    intro s h
    refine ⟨h, rfl, ?_, ?_⟩ <;> simp
  | cons m rest ih =>
    intro s h
    simp only [List.foldl_cons]
    have hm : mouseMotion s m.1 m.2 =
        { view :=
            { centerX := s.view.centerX -
                ((m.1 - s.dragStartX : ℤ) : ℚ) / (s.view.zoom * WINDOW_WIDTH / 4),
              centerY := s.view.centerY -
                ((m.2 - s.dragStartY : ℤ) : ℚ) / (s.view.zoom * WINDOW_WIDTH / 4),
              zoom := s.view.zoom },
          dragStartX := m.1, dragStartY := m.2, isDragging := true } := by
      simp [mouseMotion, h]
    rw [hm]
    obtain ⟨ih1, ih2, ih3, ih4⟩ := ih
      { view :=
          { centerX := s.view.centerX -
              ((m.1 - s.dragStartX : ℤ) : ℚ) / (s.view.zoom * WINDOW_WIDTH / 4),
            centerY := s.view.centerY -
              ((m.2 - s.dragStartY : ℤ) : ℚ) / (s.view.zoom * WINDOW_WIDTH / 4),
            zoom := s.view.zoom },
        dragStartX := m.1, dragStartY := m.2, isDragging := true } rfl
    refine ⟨ih1, by rw [ih2], ?_, ?_⟩
    · rw [ih3]
      push_cast
      ring
    · rw [ih4]
      push_cast
      ring

lemma log2_one : log2 1 = 0 := by simp [log2]

lemma log2_two : log2 2 = 1 := by
  unfold log2
  rw [div_self (ne_of_gt (Real.log_pos (by norm_num)))]

lemma log2_four : log2 4 = 2 := by
  unfold log2
  rw [show (4 : ℝ) = 2 ^ 2 by norm_num, Real.log_pow]
  have h := ne_of_gt (Real.log_pos (by norm_num : (1 : ℝ) < 2))
  field_simp

lemma log2_sixteen : log2 16 = 4 := by
  unfold log2
  rw [show (16 : ℝ) = 2 ^ 4 by norm_num, Real.log_pow]
  have h := ne_of_gt (Real.log_pos (by norm_num : (1 : ℝ) < 2))
  field_simp

lemma log2_lt_log2 {x y : ℝ} (hx : 0 < x) (hxy : x < y) : log2 x < log2 y := by
  unfold log2
  have hl2 : 0 < Real.log 2 := Real.log_pos (by norm_num)
  rw [div_lt_div_iff₀ hl2 hl2]
  have := Real.log_lt_log hx hxy
  nlinarith

lemma log2_six_lo : 2 < log2 6 := by
  have h := log2_lt_log2 (by norm_num : (0 : ℝ) < 4) (by norm_num : (4 : ℝ) < 6)
  rw [log2_four] at h
  exact h

lemma log2_six_hi : log2 6 < 4 := by
  have h := log2_lt_log2 (by norm_num : (0 : ℝ) < 6) (by norm_num : (6 : ℝ) < 16)
  rw [log2_sixteen] at h
  exact h

lemma log2_log2_six_lo : 1 < log2 (log2 6) := by
  have h := log2_lt_log2 (by norm_num : (0 : ℝ) < 2) log2_six_lo
  rw [log2_two] at h
  exact h

lemma log2_log2_six_hi : log2 (log2 6) < 2 := by
  have h := log2_lt_log2 (lt_trans (by norm_num) log2_six_lo) log2_six_hi
  rw [log2_four] at h
  exact h

/-- Restriction of `fmod` to `[0, 1)` with modulus 1 is the identity. -/
lemma fmod_one_eq_self {x : ℝ} (h0 : 0 ≤ x) (h1 : x < 1) : fmod x 1 = x := by
  unfold fmod ctrunc
  rw [div_one, if_pos h0, Int.floor_eq_zero_iff.mpr ⟨h0, h1⟩]
  norm_num

lemma ctrunc_sin_byte (θ : ℝ) :
    ctrunc (|Real.sin θ| * 255) = ⌊|Real.sin θ| * 255⌋ :=
  ctrunc_of_nonneg (by positivity)

/-- Value of `getColor` on a non-interior count, written as positional
byte arithmetic (the `<< 16 | << 8 |` packing of three byte-sized
values). -/
lemma getColor_eq_pack (n : ℕ) (h : n ≠ MAX_ITERATIONS) :
    getColor n =
      (ctrunc (|Real.sin (2 * Real.pi *
          (fmod (((n : ℝ) + 1 - log2 (log2 |(n : ℝ)|)) / 32) 1 + 0 / 3))| * 255)).toNat
        * 2 ^ 16
      + ((ctrunc (|Real.sin (2 * Real.pi *
          (fmod (((n : ℝ) + 1 - log2 (log2 |(n : ℝ)|)) / 32) 1 + 1 / 3))| * 255)).toNat
        * 2 ^ 8
      + (ctrunc (|Real.sin (2 * Real.pi *
          (fmod (((n : ℝ) + 1 - log2 (log2 |(n : ℝ)|)) / 32) 1 + 2 / 3))| * 255)).toNat) := by
  unfold getColor
  rw [if_neg h]
  exact pack_bytes _ _ _ (sinByte_le _) (sinByte_le _)

/-- Value of `getColorSpec` written as positional byte arithmetic. -/
lemma getColorSpec_eq_pack (n : ℕ) (m : ℝ) :
    getColorSpec n m =
      (ctrunc (|Real.sin (2 * Real.pi *
          (fmod (((n : ℝ) + 1 - log2 (log2 m)) / 32) 1 + 0 / 3))| * 255)).toNat * 2 ^ 16
      + ((ctrunc (|Real.sin (2 * Real.pi *
          (fmod (((n : ℝ) + 1 - log2 (log2 m)) / 32) 1 + 1 / 3))| * 255)).toNat * 2 ^ 8
      + (ctrunc (|Real.sin (2 * Real.pi *
          (fmod (((n : ℝ) + 1 - log2 (log2 m)) / 32) 1 + 2 / 3))| * 255)).toNat) := by
  unfold getColorSpec
  exact pack_bytes _ _ _ (sinByte_le _) (sinByte_le _)

/-- The red byte the code computes for `iterations = 2` is at least 128:
the hue is `3/32`, the angle `3π/16 ≈ 0.589`, and
`sin θ > θ - θ³/4 > 128/255` there. -/
lemma code_red_byte_lo :
    (128 : ℕ) ≤ (ctrunc (|Real.sin (2 * Real.pi * ((3 : ℝ) / 32 + 0 / 3))| * 255)).toNat := by
  have hpi1 := Real.pi_gt_d2
  have hpi2 := Real.pi_lt_d2
  set θ : ℝ := 2 * Real.pi * ((3 : ℝ) / 32 + 0 / 3) with hθ
  have hθlo : (0.588 : ℝ) ≤ θ := by rw [hθ]; nlinarith
  have hθhi : θ ≤ (0.591 : ℝ) := by rw [hθ]; nlinarith
  have hθpos : (0 : ℝ) < θ := by linarith
  have hθle1 : θ ≤ 1 := by linarith
  have hsin := Real.sin_gt_sub_cube hθpos hθle1
  have hcube : θ ^ 3 ≤ (0.591 : ℝ) ^ 3 := pow_le_pow_left₀ (by linarith) hθhi 3
  have hs2 : (128 : ℝ) / 255 ≤ Real.sin θ := by nlinarith
  have hpos : (0 : ℝ) < Real.sin θ := by nlinarith
  rw [abs_of_pos hpos, ctrunc_of_nonneg (by positivity)]
  have hfloor : (128 : ℤ) ≤ ⌊Real.sin θ * 255⌋ := by
    rw [Int.le_floor]
    push_cast
    nlinarith
  omega

/-- Any hue in `(1/32, 1/16)` gives a red byte of at most 100:
the angle is below `π/8 < 0.394` and `sin θ < θ` there. -/
lemma small_hue_red_byte_hi (hue : ℝ) (h1 : 1 / 32 < hue) (h2 : hue < 1 / 16) :
    (ctrunc (|Real.sin (2 * Real.pi * (hue + 0 / 3))| * 255)).toNat ≤ 100 := by
  have hpi1 := Real.pi_gt_d2
  have hpi2 := Real.pi_lt_d2
  set θ : ℝ := 2 * Real.pi * (hue + 0 / 3) with hθ
  have hθpos : (0 : ℝ) < θ := by rw [hθ]; nlinarith
  have hθhi : θ < (0.394 : ℝ) := by rw [hθ]; nlinarith
  have hθltπ : θ < Real.pi := by linarith
  have hsinpos : (0 : ℝ) < Real.sin θ := Real.sin_pos_of_pos_of_lt_pi hθpos hθltπ
  have hsinlt : Real.sin θ < θ := Real.sin_lt hθpos
  rw [abs_of_pos hsinpos, ctrunc_of_nonneg (by positivity)]
  have hfloor : ⌊Real.sin θ * 255⌋ < 101 := by
    rw [Int.floor_lt]
    push_cast
    nlinarith
  omega

/-- Claim C1 (amended): for every escaped iteration count the color
mapper computes the packed color from
`smooth = iterations + 1 - log2(log2(|iterations|))` - the raw iteration
count feeds the smoothing formula, not the escaped magnitude (which the
function never receives) - then `hue = fmod(smooth/32, 1)`, channels
`|sin(2π(hue + k/3))|` for `k = 0, 1, 2` scaled to 8 bits, packed in
positional byte order with the upper byte zero (the value is below
`2^24`). -/
theorem getColor_formula (n : ℕ) (h : n < MAX_ITERATIONS) :
    getColor n =
      (⌊|Real.sin (2 * Real.pi *
          (fmod (((n : ℝ) + 1 - log2 (log2 |(n : ℝ)|)) / 32) 1 + 0 / 3))| * 255⌋).toNat
        * 2 ^ 16
      + ((⌊|Real.sin (2 * Real.pi *
          (fmod (((n : ℝ) + 1 - log2 (log2 |(n : ℝ)|)) / 32) 1 + 1 / 3))| * 255⌋).toNat
        * 2 ^ 8
      + (⌊|Real.sin (2 * Real.pi *
          (fmod (((n : ℝ) + 1 - log2 (log2 |(n : ℝ)|)) / 32) 1 + 2 / 3))| * 255⌋).toNat) ∧
    getColor n < 2 ^ 24 := by
  have hne : n ≠ MAX_ITERATIONS := by omega
  have hpack := getColor_eq_pack n hne
  constructor
  · rw [hpack]
    simp only [ctrunc_sin_byte]
  · rw [hpack]
    have h1 := sinByte_le (2 * Real.pi *
      (fmod (((n : ℝ) + 1 - log2 (log2 |(n : ℝ)|)) / 32) 1 + 0 / 3))
    have h2 := sinByte_le (2 * Real.pi *
      (fmod (((n : ℝ) + 1 - log2 (log2 |(n : ℝ)|)) / 32) 1 + 1 / 3))
    have h3 := sinByte_le (2 * Real.pi *
      (fmod (((n : ℝ) + 1 - log2 (log2 |(n : ℝ)|)) / 32) 1 + 2 / 3))
    omega

/-- Witness for `getColor_formula` at `n = 3`. -/
theorem getColor_formula_witness :
    3 < MAX_ITERATIONS ∧
    (getColor 3 =
      (⌊|Real.sin (2 * Real.pi *
          (fmod ((((3 : ℕ) : ℝ) + 1 - log2 (log2 |((3 : ℕ) : ℝ)|)) / 32) 1 + 0 / 3))|
            * 255⌋).toNat * 2 ^ 16
      + ((⌊|Real.sin (2 * Real.pi *
          (fmod ((((3 : ℕ) : ℝ) + 1 - log2 (log2 |((3 : ℕ) : ℝ)|)) / 32) 1 + 1 / 3))|
            * 255⌋).toNat * 2 ^ 8
      + (⌊|Real.sin (2 * Real.pi *
          (fmod ((((3 : ℕ) : ℝ) + 1 - log2 (log2 |((3 : ℕ) : ℝ)|)) / 32) 1 + 2 / 3))|
            * 255⌋).toNat) ∧
    getColor 3 < 2 ^ 24) :=
  ⟨by norm_num [MAX_ITERATIONS], getColor_formula 3 (by norm_num [MAX_ITERATIONS])⟩

/-- Counterexample to claim C1 as stated: the claim computes the smooth
value from the escaped magnitude `|z|`.  For `c = 2` the engine reports
2 iterations with escaped orbit point `(6, 0)` (magnitude 6), but the
code colors it from the iteration count: `getColor 2` has red byte at
least 128 (hue `3/32`), while the magnitude-fed formula of the claim
gives a red byte of at most 100 (hue `(3 - log2 log2 6)/32 < 1/16`), so
the packed colors differ. -/
theorem getColor_ignores_magnitude :
    calculateMandelbrot (2, 0) = 2 ∧ normSq (orbit (2, 0) 2) = 36 ∧
    getColor 2 ≠ getColorSpec 2 6 := by
  refine ⟨calc_two_eq_two, by norm_num [orbit, mandelStep, normSq], ?_⟩
  have hsm : ((2 : ℕ) : ℝ) + 1 - log2 (log2 |((2 : ℕ) : ℝ)|) = 3 := by
    rw [show |((2 : ℕ) : ℝ)| = 2 by norm_num, log2_two, log2_one]
    norm_num
  have hcodepack := getColor_eq_pack 2 (by norm_num [MAX_ITERATIONS])
  rw [hsm, fmod_one_eq_self (by norm_num : (0 : ℝ) ≤ 3 / 32)
    (by norm_num : (3 : ℝ) / 32 < 1)] at hcodepack
  have hcode : 2 ^ 23 ≤ getColor 2 := by
    rw [hcodepack]
    have h := code_red_byte_lo
    omega
  have hspecpack := getColorSpec_eq_pack 2 6
  have hsms : ((2 : ℕ) : ℝ) + 1 - log2 (log2 6) = 3 - log2 (log2 6) := by
    push_cast
    ring
  rw [hsms] at hspecpack
  have hlo := log2_log2_six_lo
  have hhi := log2_log2_six_hi
  rw [fmod_one_eq_self (by linarith : (0 : ℝ) ≤ (3 - log2 (log2 6)) / 32)
    (by linarith : (3 - log2 (log2 6)) / 32 < 1)] at hspecpack
  have hrs := small_hue_red_byte_hi ((3 - log2 (log2 6)) / 32)
    (by linarith) (by linarith)
  have hg := sinByte_le (2 * Real.pi * ((3 - log2 (log2 6)) / 32 + 1 / 3))
  have hb := sinByte_le (2 * Real.pi * ((3 - log2 (log2 6)) / 32 + 2 / 3))
  have hspec : getColorSpec 2 6 < 2 ^ 23 := by
    rw [hspecpack]
    omega
  omega

/-- Claim C2: for every complex input `c`, the escape-time engine returns
the smallest `k ≤ MAX_ITERATIONS` whose orbit point leaves the radius-2
disc (`normSq > 4` is `|z| > 2`), returns `MAX_ITERATIONS` when no such
`k` exists, and in particular returns exactly `MAX_ITERATIONS` for the
interior point `c = 0`. -/
theorem calculateMandelbrot_spec (c : ℚ × ℚ) :
    calculateMandelbrot c ≤ MAX_ITERATIONS ∧
    (∀ j, j < calculateMandelbrot c → normSq (orbit c j) ≤ 4) ∧
    (4 < normSq (orbit c (calculateMandelbrot c)) ∨
      calculateMandelbrot c = MAX_ITERATIONS) ∧
    calculateMandelbrot (0, 0) = MAX_ITERATIONS := by
  obtain ⟨h1, h2, h3, h4⟩ := mandelAux_spec c MAX_ITERATIONS 0
  refine ⟨by simpa [calculateMandelbrot] using h2, ?_, ?_, ?_⟩
  · intro j hj
    exact h3 j (Nat.zero_le j) hj
  · rcases h4 with h4 | h4
    · exact Or.inl h4
    · exact Or.inr (by simpa [calculateMandelbrot] using h4)
  · show mandelAux (0, 0) MAX_ITERATIONS (0, 0) 0 = MAX_ITERATIONS
    rw [mandelAux_zero MAX_ITERATIONS 0]
    omega

/-- Claim C3: after a render pass with `T ≥ 1` workers, every pixel index
of the published frame buffer holds the color obtained by applying the
coordinate mapper, the escape-time engine and the color mapper to that
pixel under the single view state of the pass (the pass is synchronous:
the control thread joins every worker before merging and swapping, so the
whole pass is one pure function of that view state, which is how it is
modelled here), regardless of the previous work-buffer contents. -/
theorem renderMandelbrot_complete (st : ViewState) (T : ℕ) (temp : ℕ → ℕ) (idx : ℕ)
    (hT : 1 ≤ T) (hidx : idx < WINDOW_WIDTH * WINDOW_HEIGHT) :
    renderMandelbrot st T temp idx
      = pixelColor st (idx % WINDOW_WIDTH) (idx / WINDOW_WIDTH) := by
  have hW : 0 < WINDOW_WIDTH := by norm_num [WINDOW_WIDTH]
  have hy : idx / WINDOW_WIDTH < WINDOW_HEIGHT := Nat.div_lt_of_lt_mul hidx
  obtain ⟨i, hiT, his, hie⟩ := tile_cover WINDOW_HEIGHT T (idx / WINDOW_WIDTH) hT hy
  unfold renderMandelbrot
  apply merge_foldl_covered st T idx (List.range T) temp i (List.mem_range.mpr hiT)
  · calc tileStart WINDOW_HEIGHT T i * WINDOW_WIDTH
        ≤ (idx / WINDOW_WIDTH) * WINDOW_WIDTH := Nat.mul_le_mul_right _ his
      _ ≤ idx := Nat.div_mul_le_self idx _
  · have h1 : idx < (idx / WINDOW_WIDTH + 1) * WINDOW_WIDTH := by
      have hmod := Nat.div_add_mod idx WINDOW_WIDTH
      have hlt := Nat.mod_lt idx hW
      have hexp : (idx / WINDOW_WIDTH + 1) * WINDOW_WIDTH
          = WINDOW_WIDTH * (idx / WINDOW_WIDTH) + WINDOW_WIDTH := by ring
      omega
    calc idx < (idx / WINDOW_WIDTH + 1) * WINDOW_WIDTH := h1
      _ ≤ tileEnd WINDOW_HEIGHT T i * WINDOW_WIDTH :=
          Nat.mul_le_mul_right _ (by omega)

/-- Witness for `renderMandelbrot_complete` with 4 workers at pixel
index 0 from the initial view state of lines 21-23. -/
theorem renderMandelbrot_complete_witness :
    1 ≤ 4 ∧ 0 < WINDOW_WIDTH * WINDOW_HEIGHT ∧
    renderMandelbrot (ViewState.mk (-1/2) 0 1) 4 (fun _ => 0) 0
      = pixelColor (ViewState.mk (-1/2) 0 1) (0 % WINDOW_WIDTH) (0 / WINDOW_WIDTH) :=
  ⟨by decide, by decide,
    renderMandelbrot_complete (ViewState.mk (-1/2) 0 1) 4 (fun _ => 0) 0
      (by decide) (by decide)⟩

/-- Claim C4: for `1 ≤ T ≤ H` the render pass splits the rows `[0, H)`
into `T` contiguous tiles, each non-final tile of size `⌊H/T⌋`, the final
tile ending at `H`, and every row lies in exactly one tile. -/
theorem tiles_partition (H T : ℕ) (hT : 1 ≤ T) (hTH : T ≤ H) :
    tileStart H T 0 = 0 ∧
    (∀ i, i + 1 < T → tileEnd H T i - tileStart H T i = H / T) ∧
    (∀ i, i + 1 < T → tileEnd H T i = tileStart H T (i + 1)) ∧
    tileEnd H T (T - 1) = H ∧
    (∀ y, y < H → ∃! i, i < T ∧ tileStart H T i ≤ y ∧ y < tileEnd H T i) := by
  refine ⟨by simp [tileStart], ?_, ?_, ?_, ?_⟩
  · intro i hi
    have hne : i ≠ T - 1 := by omega
    rw [tileEnd, if_neg hne, tileStart]
    have hmul : (i + 1) * linesPerThread H T
        = i * linesPerThread H T + linesPerThread H T := by ring
    rw [hmul, Nat.add_sub_cancel_left]
    rfl
  · intro i hi
    have hne : i ≠ T - 1 := by omega
    rw [tileEnd, if_neg hne, tileStart]
  · rw [tileEnd, if_pos rfl]
  · intro y hy
    obtain ⟨i, hiT, his, hie⟩ := tile_cover H T y hT hy
    refine ⟨i, ⟨hiT, his, hie⟩, ?_⟩
    intro j ⟨hjT, hjs, hje⟩
    rcases lt_trichotomy j i with hlt | heq | hgt
    · exact absurd (tile_disjoint H T j i y hlt hiT ⟨hjs, hje⟩ ⟨his, hie⟩) id
    · exact heq
    · exact absurd (tile_disjoint H T i j y hgt hjT ⟨his, hie⟩ ⟨hjs, hje⟩) id

/-- Witness for `tiles_partition` at `H = 10`, `T = 3`. -/
theorem tiles_partition_witness :
    1 ≤ 3 ∧ 3 ≤ 10 ∧
    (tileStart 10 3 0 = 0 ∧
    (∀ i, i + 1 < 3 → tileEnd 10 3 i - tileStart 10 3 i = 10 / 3) ∧
    (∀ i, i + 1 < 3 → tileEnd 10 3 i = tileStart 10 3 (i + 1)) ∧
    tileEnd 10 3 (3 - 1) = 10 ∧
    (∀ y, y < 10 → ∃! i, i < 3 ∧ tileStart 10 3 i ≤ y ∧ y < tileEnd 10 3 i)) :=
  ⟨by decide, by decide, tiles_partition 10 3 (by decide) (by decide)⟩

/-- Claim C5: the coordinate mapper computes exactly the documented
formulas (with the horizontal extent as the scale denominator for both
axes), and composing it with the spec-modelled inverse direction returns
the original pixel (exactly, in the idealised arithmetic). -/
theorem coordinate_mapper_inverse (x y : ℚ) (st : ViewState) (hz : st.zoom ≠ 0) :
    complexFromPixel x y st =
      ((x - WINDOW_WIDTH / 2) / (st.zoom * WINDOW_WIDTH / 4) + st.centerX,
       (y - WINDOW_HEIGHT / 2) / (st.zoom * WINDOW_WIDTH / 4) + st.centerY) ∧
    pixelFromComplex (complexFromPixel x y st) st = (x, y) := by
  refine ⟨rfl, ?_⟩
  have hW : ((WINDOW_WIDTH : ℚ)) = 800 := by norm_num [WINDOW_WIDTH]
  have hs : st.zoom * (WINDOW_WIDTH : ℚ) / 4 ≠ 0 := by
    rw [hW]
    intro h
    apply hz
    nlinarith [h]
  unfold complexFromPixel pixelFromComplex
  refine Prod.ext ?_ ?_
  · show ((x - WINDOW_WIDTH / 2) / (st.zoom * WINDOW_WIDTH / 4) + st.centerX
        - st.centerX) * (st.zoom * WINDOW_WIDTH / 4) + WINDOW_WIDTH / 2 = x
    field_simp
    ring
  · show ((y - WINDOW_HEIGHT / 2) / (st.zoom * WINDOW_WIDTH / 4) + st.centerY
        - st.centerY) * (st.zoom * WINDOW_WIDTH / 4) + WINDOW_HEIGHT / 2 = y
    field_simp
    ring

/-- Witness for `coordinate_mapper_inverse` at pixel `(100, 50)` and the
view state `(-1/2, 0, 2)`. -/
theorem coordinate_mapper_inverse_witness :
    (ViewState.mk (-1/2) 0 2).zoom ≠ 0 ∧
    pixelFromComplex (complexFromPixel 100 50 (ViewState.mk (-1/2) 0 2))
      (ViewState.mk (-1/2) 0 2) = (100, 50) :=
  ⟨by norm_num, (coordinate_mapper_inverse 100 50 (ViewState.mk (-1/2) 0 2)
    (by norm_num)).2⟩

/-- Claim C6 (the code contradicts it): `iterations = 1` reaches the
color mapper (from `c = 3`, which escapes after one completed
iteration), is not the interior case, and the code feeds the outer
`log2` the value `log2(|1|) = 0` - a zero argument - instead of clamping
or special-casing; in C++ this evaluates `log2(0) = -inf` and poisons
the channels with NaN. -/
theorem getColor_smoothing_zero_arg :
    calculateMandelbrot (3, 0) = 1 ∧ (1 : ℕ) ≠ MAX_ITERATIONS ∧
    log2 |((1 : ℕ) : ℝ)| = 0 := by
  refine ⟨calc_three_eq_one, by norm_num [MAX_ITERATIONS], ?_⟩
  rw [show |((1 : ℕ) : ℝ)| = 1 by norm_num, log2_one]

/-- Claim C7 (amended): on a scroll notification the handler targets
`zoom * 1.1` (scroll in) or `zoom / 1.1` (scroll out) and runs at most
10 sub-steps, the k-th moving zoom `k/10` (not `1/10`) of the way from
its current value toward the target and stopping early at the `0.0001`
threshold, so the final zoom is always within `0.0001` of the target. -/
theorem mouseWheel_converges (wheelY : ℤ) (st : ViewState) (mX mY : ℚ) :
    |(mouseWheel wheelY st mX mY).zoom -
      (if 0 < wheelY then st.zoom * (11 / 10) else st.zoom / (11 / 10))| ≤ 1 / 10000 :=
  mouseWheel_close wheelY st mX mY

/-- Counterexample to claim C7 as stated: the claim says every sub-step
moves zoom `1/10` of the way from the current value toward the target,
but running the code loop for two sub-steps from `zoom = 1` toward target
`1.1` gives `1.028` (the second sub-step moves `2/10` of the remaining
way), while two spec sub-steps of `1/10` each give `1.019`. -/
theorem wheel_substep_not_tenth :
    (wheelAux (11 / 10) 0 0 0 0 2 1 (ViewState.mk 0 0 1) 1).zoom
      ≠ wheelSubStepSpec (wheelSubStepSpec 1 (11 / 10)) (11 / 10) := by
  norm_num [wheelAux, wheelSubStepSpec, abs]

/-- Claim C8: a single scroll-in event from `zoom = 1` brings the zoom
within `0.0001` of `1.1`, and the complex-plane point under the cursor
before the scroll is still under the cursor afterwards (exactly, in the
idealised arithmetic). -/
theorem scroll_in_zoom_anchor (cX cY mX mY : ℚ) :
    |(mouseWheel 1 (ViewState.mk cX cY 1) mX mY).zoom - 11 / 10| ≤ 1 / 10000 ∧
    complexFromPixel mX mY (mouseWheel 1 (ViewState.mk cX cY 1) mX mY)
      = complexFromPixel mX mY (ViewState.mk cX cY 1) := by
  constructor
  · have h := mouseWheel_close 1 (ViewState.mk cX cY 1) mX mY
    norm_num at h
    exact h
  · exact wheelAux_anchor _ mX mY _ _ 10 1 (ViewState.mk cX cY 1) 1 rfl

/-- Claim C9: a continuous drag from `(x0, y0)` to `(x1, y1)` through any
intermediate motion events changes the center by exactly the one-shot
delta `-(x1-x0)/(zoom*W/4)`, independent of the intermediate anchor
re-basing, and leaves the zoom unchanged. -/
theorem drag_net_delta (st : ExplorerState) (x0 y0 : ℤ) (moves : List (ℤ × ℤ))
    (x1 y1 : ℤ) :
    (dragRun st x0 y0 (moves ++ [(x1, y1)])).view.centerX
      = st.view.centerX - ((x1 - x0 : ℤ) : ℚ) / (st.view.zoom * WINDOW_WIDTH / 4) ∧
    (dragRun st x0 y0 (moves ++ [(x1, y1)])).view.centerY
      = st.view.centerY - ((y1 - y0 : ℤ) : ℚ) / (st.view.zoom * WINDOW_WIDTH / 4) ∧
    (dragRun st x0 y0 (moves ++ [(x1, y1)])).view.zoom = st.view.zoom := by
  set mid := moves.foldl (fun a m => mouseMotion a m.1 m.2) (mouseButtonDown st x0 y0)
    with hmiddef
  obtain ⟨h1, h2, h3, h4⟩ :=
    dragFold_spec (moves ++ [(x1, y1)]) (mouseButtonDown st x0 y0) rfl
  obtain ⟨m1, m2, m3, m4⟩ := dragFold_spec moves (mouseButtonDown st x0 y0) rfl
  rw [← hmiddef] at m1 m2 m3 m4
  have hlast : (moves ++ [(x1, y1)]).foldl (fun a m => mouseMotion a m.1 m.2)
        (mouseButtonDown st x0 y0)
      = mouseMotion mid x1 y1 := by
    rw [List.foldl_append]
    rfl
  have hdsx : (mouseMotion mid x1 y1).dragStartX = x1 := by
    simp [mouseMotion, m1]
  have hdsy : (mouseMotion mid x1 y1).dragStartY = y1 := by
    simp [mouseMotion, m1]
  rw [hlast, hdsx] at h3
  rw [hlast, hdsy] at h4
  rw [hlast] at h2
  have hview : (dragRun st x0 y0 (moves ++ [(x1, y1)])).view
      = (mouseMotion mid x1 y1).view := by
    unfold dragRun
    rw [hlast]
    rfl
  rw [hview]
  simp only [mouseButtonDown] at h2 h3 h4
  exact ⟨h3, h4, h2⟩

/-- Claim C10: the escape-time loop always terminates within the
iteration budget and its result lies in `[0, MAX_ITERATIONS]` (the lower
bound is inherent in the return type). -/
theorem calculateMandelbrot_le_max (c : ℚ × ℚ) :
    calculateMandelbrot c ≤ MAX_ITERATIONS := by
  have h := (mandelAux_spec c MAX_ITERATIONS 0).2.1
  simpa [calculateMandelbrot] using h
